import Mathlib

/-!
Verification of the spirit online-schema-change core: a shallow embedding of
the binlog change tracker (`pkg/repl/client.go`) and the parallel chunk
copier (`pkg/row/copier.go`), with theorems settling the frozen claims
about the natural-language specification.

Conventions of the embedding:
* The Go `map[string]bool` changeset is modelled as an association list
  `List (String × Bool)` with overwrite-on-insert (`setKey`), which refines a
  Go map by fixing an iteration order.
* Machine integers (`int64`, `uint64`, `uint32`) are modelled as `Int`/`Nat`;
  the quantities involved (row counts, byte positions) stay far below 2^63 so
  wrap-around is never reachable on the modelled domains.
* Go `float64` arithmetic in progress/ETA computations is modelled over `ℚ`.
* Database round-trips are modelled as oracle parameters: a batch-success
  oracle for `doFlush`, the master-status / master-logs answers for `Run`.
-/

/-- A binary log position, mirroring `mysql.Position` (`Name string`,
`Pos uint32`). -/
structure Position where
  name : String
  pos : Nat
deriving DecidableEq, Repr

/-- The state of the binlog tracker `repl.Client` relevant to the claims.
`chunkerAttached` models `c.table.Chunker` as an optional
`KeyAboveHighWatermark` predicate on a single key value (the Go call site
passes `key[0]`, an `interface\x7b\x7d`, to the chunker).  Pointer-valued
positions are modelled with `Option`. -/
structure Client where
  chunkerAttached : Option (Int → Bool)
  disableKeyAboveWatermarkOptimization : Bool
  binlogChangeset : List (String × Bool)
  binlogChangesetDelta : Int
  binlogPosSynced : Option Position
  binlogPosInMemory : Option Position
  lastLogFileName : String
  changesetRowsCount : Int
  changesetRowsEventCount : Int

/-- `NewClient` from `client.go`: only `binlogChangeset` is initialised to an
empty map; every other field keeps the Go zero value — in particular
`disableKeyAboveWatermarkOptimization` is `false`.  The chunker reaches the
client through the shared `table.TableInfo`; it is a constructor argument
here. -/
def newClient (chunker : Option (Int → Bool)) : Client :=
  { chunkerAttached := chunker
    disableKeyAboveWatermarkOptimization := false
    binlogChangeset := []
    binlogChangesetDelta := 0
    binlogPosSynced := none
    binlogPosInMemory := none
    lastLogFileName := ""
    changesetRowsCount := 0
    changesetRowsEventCount := 0 }

/-- `SetKeyAboveWatermarkOptimization` from `client.go`: stores the negation
of its argument into the disable flag. -/
def setKeyAboveWatermarkOptimization (c : Client) (newVal : Bool) : Client :=
  { c with disableKeyAboveWatermarkOptimization := !newVal }

/-- `SetPos` from `client.go`. -/
def setPos (c : Client) (pos : Option Position) : Client :=
  { c with binlogPosSynced := pos }

/-- `GetBinlogApplyPosition` from `client.go`. -/
def getBinlogApplyPosition (c : Client) : Option Position :=
  c.binlogPosSynced

/-- `GetDeltaLen` from `client.go`: `len(c.binlogChangeset) +
int(c.binlogChangesetDelta)`. -/
def getDeltaLen (c : Client) : Int :=
  (c.binlogChangeset.length : Int) + c.binlogChangesetDelta

/-- Go map assignment `m[k] = b`: overwrite the entry for `k` if present,
otherwise append a new entry. -/
def setKey : List (String × Bool) → String → Bool → List (String × Bool)
  | [], k, b => [(k, b)]
  | (k', b') :: rest, k, b =>
    if k' = k then (k', b) :: rest else (k', b') :: setKey rest k b

/-- Go map read `m[k]` (as an option). -/
def lookupKey : List (String × Bool) → String → Option Bool
  | [], _ => none
  | (k', b') :: rest, k => if k' = k then some b' else lookupKey rest k

/-- A primary-key tuple as delivered by
`ExtractPrimaryKeyFromRowImage`: at least one column (head) plus the
remaining columns.  The Go code indexes `key[0]`, so emptiness is
unrepresentable by construction. -/
abbrev PKey := Int × List Int

/-- Modelled from the spec: `utils.HashKey` (not under `src/`) produces a
canonical fingerprint string of the ordered PK-value tuple.  Only its use as
an abstract, deterministic fingerprint matters for the claims. -/
def hashKey (k : PKey) : String :=
  toString (k.1 :: k.2)

/-- `keyHasChanged` from `client.go`: `c.binlogChangeset[utils.HashKey(key)] =
deleted`. -/
def keyHasChanged (c : Client) (key : PKey) (deleted : Bool) : Client :=
  { c with binlogChangeset := setKey c.binlogChangeset (hashKey key) deleted }

/-- The three canal row actions dispatched in `OnRow`. -/
inductive RowAction where
  | insert
  | update
  | delete
deriving DecidableEq, Repr

/-- The tombstone flag written for an action: `true` exactly for a delete
(`OnRow` calls `keyHasChanged(key, false)` for insert and update and
`keyHasChanged(key, true)` for delete). -/
def actionIsDelete : RowAction → Bool
  | .delete => true
  | _ => false

/-- A `canal.RowsEvent`: one action, one or more row images (already reduced
to their primary keys), and the header log position. -/
structure RowsEvent where
  action : RowAction
  rows : List PKey
  logPos : Nat

/-- The key-above-watermark filter condition of `OnRow` (line 87 of
`client.go`): `c.table.Chunker != nil && !c.disableKeyAboveWatermarkOptimization
&& c.table.Chunker.KeyAboveHighWatermark(key[0])`. -/
def watermarkDiscard (c : Client) (key : PKey) : Bool :=
  match c.chunkerAttached with
  | some pred => !c.disableKeyAboveWatermarkOptimization && pred key.1
  | none => false

/-- One iteration of the `for _, row := range e.Rows` loop in `OnRow`:
count the event, then either discard by the watermark filter or record the
key with its tombstone flag. -/
def onRowStep (c : Client) (action : RowAction) (key : PKey) : Client :=
  let c' := { c with changesetRowsEventCount := c.changesetRowsEventCount + 1 }
  if watermarkDiscard c' key then c'
  else keyHasChanged c' key (actionIsDelete action)

/-- `updatePosInMemory` from `client.go`. -/
def updatePosInMemory (c : Client) (pos : Nat) : Client :=
  { c with binlogPosInMemory := some ⟨c.lastLogFileName, pos⟩ }

/-- `OnRow` from `client.go`: fold the per-row step over `e.Rows`, then
update the in-memory position from the event header. -/
def onRow (c : Client) (e : RowsEvent) : Client :=
  updatePosInMemory (e.rows.foldl (fun acc k => onRowStep acc e.action k) c) e.logPos

/-- Deliver a sequence of row events to `OnRow`. -/
def processEvents (c : Client) (evts : List RowsEvent) : Client :=
  evts.foldl onRow c

/-- The flat stream of (fingerprint, tombstone) writes that a sequence of
events induces, in delivery order. -/
def flattenWrites : List RowsEvent → List (String × Bool)
  | [] => []
  | e :: es => e.rows.map (fun k => (hashKey k, actionIsDelete e.action)) ++ flattenWrites es

/-- The flag of the last write for fingerprint `k` in a write stream
(`none` when `k` never occurs). -/
def lastFlag (ws : List (String × Bool)) (k : String) : Option Bool :=
  ws.foldl (fun acc w => if w.1 = k then some w.2 else acc) none

/-- The accumulator of the `for key, isDelete := range setToFlush` loop in
`Flush` (`client.go` lines 290 to 306).  `calls` counts the `doFlush`
invocations so far (consumed by the batch-success oracle); `applied` is a
ghost field counting the captured entries already drained by a successful
batch. -/
structure FlushAcc where
  deleteKeys : List String
  replaceKeys : List String
  i : Nat
  delta : Int
  calls : Nat
  applied : Nat
deriving DecidableEq, Repr

/-- The accumulator right after the map swap: empty key batches, `i = 0`,
and `binlogChangesetDelta` just stored as the captured length `n`
(`atomic.StoreInt64(&c.binlogChangesetDelta, int64(len(setToFlush)))`). -/
def initAcc (n : Nat) : FlushAcc :=
  ⟨[], [], 0, (n : Int), 0, 0⟩

/-- The partition-and-batch loop of `Flush`: each captured entry is appended
to `deleteKeys` or `replaceKeys`; every 10000th entry triggers a `doFlush`
whose success is decided by the oracle `dbOk` at the current call index.  On
success the delta is decremented by 10000 and the batches reset; on failure
the loop stops, returning `true` in the error component (the Go `return err`
at line 302). -/
def flushLoop (dbOk : Nat → Bool) : List (String × Bool) → FlushAcc → FlushAcc × Bool
  | [], acc => (acc, false)
  | (key, isDelete) :: rest, acc =>
    let i := acc.i + 1
    let dk := if isDelete then acc.deleteKeys ++ [key] else acc.deleteKeys
    let rk := if isDelete then acc.replaceKeys else acc.replaceKeys ++ [key]
    if i % 10000 = 0 then
      if dbOk acc.calls then
        flushLoop dbOk rest
          ⟨[], [], i, acc.delta - 10000, acc.calls + 1, acc.applied + (dk.length + rk.length)⟩
      else
        ({ acc with deleteKeys := dk, replaceKeys := rk, i := i, calls := acc.calls + 1 }, true)
    else
      flushLoop dbOk rest { acc with deleteKeys := dk, replaceKeys := rk, i := i }

/-- `Flush` from `client.go`: capture the changeset and `posInMemory` under
the mutex, install a fresh map, set the delta to the captured length, run the
batch loop, then run the final `doFlush` and — unconditionally, before
returning the final error — `SetPos(posOfFlush)`.  The deferred function adds
the captured length to `changesetRowsCount` and resets the delta to zero on
every exit path.  Returns the post-state and whether an error was returned.
A mid-loop batch failure returns before `SetPos`, so `binlogPosSynced` is
only left unchanged on that path. -/
def clientFlush (dbOk : Nat → Bool) (c : Client) : Client × Bool :=
  let setToFlush := c.binlogChangeset
  let posOfFlush := c.binlogPosInMemory
  let r := flushLoop dbOk setToFlush (initAcc setToFlush.length)
  if r.2 then
    ({ c with binlogChangeset := []
              binlogChangesetDelta := 0
              changesetRowsCount := c.changesetRowsCount + setToFlush.length }, true)
  else
    let finalOk := dbOk r.1.calls
    ({ c with binlogChangeset := []
              binlogChangesetDelta := 0
              changesetRowsCount := c.changesetRowsCount + setToFlush.length
              binlogPosSynced := posOfFlush }, !finalOk)

/-- `binlogPositionIsImpossible` from `client.go`, with the `SHOW MASTER
LOGS` round-trip as an oracle: `none` models a query or scan error (the Go
code returns `true`, impossible, in that case); `some ls` is the enumerated
list of log file names.  The position is possible exactly when its file name
is present. -/
def binlogPositionIsImpossible (logs : Option (List String)) (name : String) : Bool :=
  match logs with
  | none => true
  | some ls => !(ls.contains name)

/-- The outcome of `Run` from `client.go`: either a synchronous error (with
the Go error message), or the background canal consumer was spawned reading
from `posSynced` (which is also stored into `binlogPosInMemory` and
`lastLogFileName` first). -/
inductive RunOutcome where
  | failed (msg : String)
  | started (posSynced : Position)
deriving DecidableEq, Repr

/-- `Run` from `client.go` with its database round-trips as oracles:
`canalOk` is whether `canal.NewCanal` succeeded, `master` the `SHOW MASTER
STATUS` answer (`none` models a scan error), `logs` the `SHOW MASTER LOGS`
answer.  When no prior synced position exists the master position becomes
`posSynced`; a prior position whose log file is impossible produces a
synchronous error before the consumer goroutine is spawned; otherwise the
consumer starts at `posSynced`. -/
def clientRun (canalOk : Bool) (prior : Option Position) (master : Option Position)
    (logs : Option (List String)) : RunOutcome :=
  if !canalOk then .failed "canal setup failed" else
  match prior with
  | none =>
    match master with
    | none => .failed "failed to get binlog position, check binary is enabled"
    | some p => .started p
  | some p =>
    if binlogPositionIsImpossible logs p.name then
      .failed "binlog position is impossible, the source may have already purged it"
    else
      .started p

/-- The `table.TableInfo` fields consumed by the copier's estimation code:
`KeyIsAutoInc`, the result of `strconv.ParseUint` on `MaxValue().String()`
(`none` models a parse error, in which case the Go code falls back to
`EstimatedRows`), and `EstimatedRows`. -/
structure TableMeta where
  KeyIsAutoInc : Bool
  MaxValueParsed : Option Nat
  EstimatedRows : Nat
deriving DecidableEq, Repr

/-- The mutable counters of `row.Copier` relevant to the claims (all atomic
`uint64` in Go, modelled as `Nat`). -/
structure CopierState where
  CopyRowsCount : Nat
  CopyRowsLogicalCount : Nat
  CopyChunksCount : Nat
  rowsPerSecond : Nat
deriving DecidableEq, Repr, Inhabited

/-- The counter state after `NewCopier`: Go zero values. -/
def newCopierState : CopierState :=
  ⟨0, 0, 0, 0⟩

/-- The counter state after `NewCopierFromCheckpoint`: the resume triple's
`rowsCopied` and `rowsCopiedLogical` overwrite the two row counters
(`copier.go` lines 121 to 122). -/
def copierFromCheckpoint (rowsCopied rowsCopiedLogical : Nat) : CopierState :=
  { newCopierState with
      CopyRowsCount := rowsCopied
      CopyRowsLogicalCount := rowsCopiedLogical }

/-- The counter updates of one completed `CopyChunk` (`copier.go` lines 146
to 148): add the DB-reported affected rows, the chunk's logical size, and
one chunk. -/
def copyChunkCounters (c : CopierState) (affectedRows chunkSize : Nat) : CopierState :=
  { c with
      CopyRowsCount := c.CopyRowsCount + affectedRows
      CopyRowsLogicalCount := c.CopyRowsLogicalCount + chunkSize
      CopyChunksCount := c.CopyChunksCount + 1 }

/-- A sequence of completed chunks, each given as
(affected rows, logical chunk size). -/
def applyChunks (c : CopierState) (chunks : List (Nat × Nat)) : CopierState :=
  chunks.foldl (fun acc p => copyChunkCounters acc p.1 p.2) c

/-- The result triple of `getCopyStats`. -/
structure CopyStats where
  copied : Nat
  total : Nat
  pct : ℚ

/-- `getCopyStats` from `copier.go`: with a monotonic auto-inc PK, progress
is logical rows against the parsed max PK value (falling back to
`EstimatedRows` on parse error); otherwise affected rows against
`EstimatedRows`.  Percentages are over `ℚ` in place of `float64`. -/
def getCopyStats (t : TableMeta) (c : CopierState) : CopyStats :=
  if t.KeyIsAutoInc then
    let copyRows := c.CopyRowsLogicalCount
    let maxValue := t.MaxValueParsed.getD t.EstimatedRows
    ⟨copyRows, maxValue, (copyRows : ℚ) / (maxValue : ℚ) * 100⟩
  else
    ⟨c.CopyRowsCount, t.EstimatedRows,
      (c.CopyRowsCount : ℚ) / (t.EstimatedRows : ℚ) * 100⟩

/-- The value `GetETA` returns: the Go strings "DUE" and "TBD", or a
duration of whole seconds optionally suffixed with the trend comparison
produced by the ETA history. -/
inductive EtaResult where
  | due
  | tbd
  | duration (seconds : Nat) (trend : Option String)
deriving DecidableEq, Repr

/-- `GetETA` from `copier.go`.  `elapsedSeconds` models `time.Since(c.startTime)`
in seconds and `comparison` is the string returned by
`copierEtaHistory.addCurrentEstimateAndCompare` (empty means no suffix; the
history implementation is outside the copier).  Note the strict comparison
`pct > 99.99` on line 273 and the warm-up constant
`copyETAInitialWaitTime = 1 * time.Minute`. -/
def getETA (t : TableMeta) (c : CopierState) (elapsedSeconds : ℚ) (comparison : String) :
    EtaResult :=
  let stats := getCopyStats t c
  if stats.pct > 9999 / 100 then .due
  else if c.rowsPerSecond = 0 ∨ elapsedSeconds < 60 then .tbd
  else
    .duration ((stats.total - stats.copied) / c.rowsPerSecond)
      (if comparison = "" then none else some comparison)

/-- Modelled from the spec's words for claim C8 exactly as stated: "DUE"
whenever the copied percentage is at least 99.99 percent; otherwise "TBD"
during the warm-up window or when the rows-per-second estimate is zero;
otherwise the floor of remaining over rowsPerSecond, optionally annotated. -/
def getETAClaimed (t : TableMeta) (c : CopierState) (elapsedSeconds : ℚ) (comparison : String) :
    EtaResult :=
  let stats := getCopyStats t c
  if stats.pct ≥ 9999 / 100 then .due
  else if c.rowsPerSecond = 0 ∨ elapsedSeconds < 60 then .tbd
  else
    .duration ((stats.total - stats.copied) / c.rowsPerSecond)
      (if comparison = "" then none else some comparison)

/-- `copyEstimateInterval` from `copier.go`, in seconds (`10 * time.Second`);
also the value of `intervalsDivisor` on line 316. -/
def copyEstimateIntervalSeconds : Nat := 10

/-- The counter sampled by `estimateRowsPerSecondLoop`: the logical count
when the PK is a monotonic auto-inc integer, the affected count otherwise
(`copier.go` lines 297 to 300 and 311 to 314). -/
def sampleCount (keyIsAutoInc : Bool) (c : CopierState) : Nat :=
  if keyIsAutoInc then c.CopyRowsLogicalCount else c.CopyRowsCount

/-- One tick of `estimateRowsPerSecondLoop`: sample the counter, divide the
interval difference by the ten-second divisor, store the result into
`rowsPerSecond`, and carry the new sample as the next `prevRowsCount`. -/
def estimateTick (keyIsAutoInc : Bool) (prevRowsCount : Nat) (c : CopierState) :
    CopierState × Nat :=
  let newRowsCount := sampleCount keyIsAutoInc c
  let rps := (newRowsCount - prevRowsCount) / copyEstimateIntervalSeconds
  ({ c with rowsPerSecond := rps }, newRowsCount)

/-- The estimator loop run over a list of successive copier-counter
snapshots (one per ten-second tick): returns the copier state stored at each
tick, with `rowsPerSecond` updated. -/
def estimateLoop (keyIsAutoInc : Bool) (prevRowsCount : Nat) :
    List CopierState → List CopierState
  | [] => []
  | c :: rest =>
    let t := estimateTick keyIsAutoInc prevRowsCount c
    t.1 :: estimateLoop keyIsAutoInc t.2 rest

/-- The externally visible effects of copier code, used to state trace
properties of `Run` and `CopyChunk`. -/
inductive CopierAction where
  | logMsg (msg : String)
  | sleepSeconds (n : Nat)
  | chunkerNext
  | throttlerBlockWait
  | runChunkQuery
  | updateCounters
  | chunkerFeedback
  | sendMetrics
deriving DecidableEq, Repr

/-- The effect trace of one successful `CopyChunk` (`copier.go` lines 128 to
161): `Throttler.BlockWait()` first, then the retryable bulk-insert
transaction, then the three atomic counter updates, then
`chunker.Feedback`, then metrics. -/
def copyChunkTrace : List CopierAction :=
  [.throttlerBlockWait, .runChunkQuery, .updateCounters, .chunkerFeedback, .sendMetrics]

/-- The effect trace of one successful worker spawned by the `Run` driver
loop (`copier.go` lines 197 to 214): the worker logs, sleeps five seconds,
obtains the next chunk, and only then runs `CopyChunk`. -/
def runWorkerTrace : List CopierAction :=
  .logMsg "Waiting for 5 seconds" :: .sleepSeconds 5 :: .chunkerNext :: copyChunkTrace

/-! ## Association-map lemmas for the changeset buffer -/

theorem lookupKey_setKey (m : List (String × Bool)) (k' : String) (b : Bool) (k : String) :
    lookupKey (setKey m k' b) k = if k' = k then some b else lookupKey m k := by
  induction m with
  | nil =>
    by_cases h : k' = k
    all_goals simp [setKey, lookupKey, h]
  | cons hd tl ih =>
    obtain ⟨a, c⟩ := hd
    by_cases hak : a = k' <;> by_cases hk : k' = k <;>
      simp [setKey, lookupKey, hak, hk, ih] <;>
      simp_all [lookupKey]

theorem mem_map_fst_setKey (m : List (String × Bool)) (k : String) (b : Bool) (x : String) :
    x ∈ (setKey m k b).map Prod.fst ↔ x ∈ m.map Prod.fst ∨ x = k := by
  induction m with
  | nil => simp [setKey]
  | cons hd tl ih =>
    obtain ⟨a, c⟩ := hd
    by_cases hak : a = k <;> simp [setKey, hak, ih] <;> tauto

theorem nodup_map_fst_setKey (m : List (String × Bool)) (k : String) (b : Bool)
    (h : (m.map Prod.fst).Nodup) : ((setKey m k b).map Prod.fst).Nodup := by
  induction m with
  | nil => simp [setKey]
  | cons hd tl ih =>
    obtain ⟨a, c⟩ := hd
    simp only [List.map_cons, List.nodup_cons] at h
    by_cases hak : a = k
    · simpa [setKey, hak] using h
    · rw [show setKey ((a, c) :: tl) k b = (a, c) :: setKey tl k b from by simp [setKey, hak]]
      simp only [List.map_cons, List.nodup_cons]
      refine ⟨?_, ih h.2⟩
      rw [mem_map_fst_setKey]
      rintro (hmem | rfl)
      · exact h.1 hmem
      · exact hak rfl

/-- `lastFlag` as a fold from an arbitrary earlier value: the fold result is
the last in-stream write when one exists, else the earlier value. -/
theorem foldl_flag_from (k : String) (ws : List (String × Bool)) (init : Option Bool) :
    ws.foldl (fun acc w => if w.1 = k then some w.2 else acc) init
      = (lastFlag ws k).elim init some := by
  induction ws generalizing init with
  | nil => simp [lastFlag]
  | cons w ws ih =>
    obtain ⟨k', b⟩ := w
    have hcons : lastFlag ((k', b) :: ws) k
        = (lastFlag ws k).elim (if k' = k then some b else none) some := by
      simp only [lastFlag, List.foldl_cons]
      exact ih (if k' = k then some b else none)
    simp only [List.foldl_cons]
    rw [ih (if k' = k then some b else init), hcons]
    cases lastFlag ws k <;> by_cases hk : k' = k <;> simp [hk]

theorem lookupKey_foldl_setKey (ws : List (String × Bool)) (m : List (String × Bool))
    (k : String) :
    lookupKey (ws.foldl (fun acc w => setKey acc w.1 w.2) m) k
      = (lastFlag ws k).elim (lookupKey m k) some := by
  induction ws generalizing m with
  | nil => simp [lastFlag]
  | cons w ws ih =>
    obtain ⟨k', b⟩ := w
    have hcons : lastFlag ((k', b) :: ws) k
        = (lastFlag ws k).elim (if k' = k then some b else none) some := by
      simp only [lastFlag, List.foldl_cons]
      exact foldl_flag_from k ws (if k' = k then some b else none)
    simp only [List.foldl_cons]
    rw [ih (setKey m k' b), hcons]
    cases lastFlag ws k <;> by_cases hk : k' = k <;>
      simp [hk, lookupKey_setKey]

theorem nodup_map_fst_foldl_setKey (ws : List (String × Bool)) (m : List (String × Bool))
    (h : (m.map Prod.fst).Nodup) :
    (((ws.foldl (fun acc w => setKey acc w.1 w.2) m)).map Prod.fst).Nodup := by
  induction ws generalizing m with
  | nil => exact h
  | cons w ws ih =>
    simp only [List.foldl_cons]
    exact ih _ (nodup_map_fst_setKey m w.1 w.2 h)

/-! ## OnRow wiring lemmas (no chunker attached) -/

theorem onRowStep_none (c : Client) (a : RowAction) (k : PKey)
    (h : c.chunkerAttached = none) :
    (onRowStep c a k).binlogChangeset
        = setKey c.binlogChangeset (hashKey k) (actionIsDelete a)
      ∧ (onRowStep c a k).chunkerAttached = none := by
  simp [onRowStep, watermarkDiscard, h, keyHasChanged]

theorem foldRows_none (rows : List PKey) (c : Client) (a : RowAction)
    (h : c.chunkerAttached = none) :
    (rows.foldl (fun acc k => onRowStep acc a k) c).binlogChangeset
        = (rows.map (fun k => (hashKey k, actionIsDelete a))).foldl
            (fun acc w => setKey acc w.1 w.2) c.binlogChangeset
      ∧ (rows.foldl (fun acc k => onRowStep acc a k) c).chunkerAttached = none := by
  induction rows generalizing c with
  | nil => exact ⟨rfl, h⟩
  | cons r rows ih =>
    obtain ⟨hset, hchunk⟩ := onRowStep_none c a r h
    obtain ⟨ih1, ih2⟩ := ih (onRowStep c a r) hchunk
    refine ⟨?_, ih2⟩
    simp only [List.foldl_cons, List.map_cons, ih1, hset]

theorem processEvents_none (evts : List RowsEvent) (c : Client)
    (h : c.chunkerAttached = none) :
    (processEvents c evts).binlogChangeset
        = (flattenWrites evts).foldl (fun acc w => setKey acc w.1 w.2) c.binlogChangeset
      ∧ (processEvents c evts).chunkerAttached = none := by
  induction evts generalizing c with
  | nil => exact ⟨rfl, h⟩
  | cons e es ih =>
    obtain ⟨h1, h2⟩ := foldRows_none e.rows c e.action h
    have honrow : (onRow c e).binlogChangeset
        = (e.rows.map (fun k => (hashKey k, actionIsDelete e.action))).foldl
            (fun acc w => setKey acc w.1 w.2) c.binlogChangeset := h1
    have honrowc : (onRow c e).chunkerAttached = none := h2
    obtain ⟨ih1, ih2⟩ := ih (onRow c e) honrowc
    refine ⟨?_, ih2⟩
    simp only [processEvents, List.foldl_cons] at ih1 ⊢
    rw [ih1, honrow, flattenWrites, List.foldl_append]

/-- Claim C2: within one buffering window the changeset buffer holds at most
one entry per primary-key fingerprint, the stored flag is exactly "the last
event observed for that key was a delete", and an update is recorded
identically to an insert (so insert-then-delete collapses to a tombstone and
delete-then-insert collapses to a live entry). -/
theorem rowEvents_coalesce_to_last_operation (evts : List RowsEvent) (fp : String) :
    (((processEvents (newClient none) evts).binlogChangeset).map Prod.fst).Nodup
  ∧ lookupKey (processEvents (newClient none) evts).binlogChangeset fp
      = lastFlag (flattenWrites evts) fp
  ∧ (∀ (c : Client) (rows : List PKey) (p : Nat),
      onRow c ⟨RowAction.update, rows, p⟩ = onRow c ⟨RowAction.insert, rows, p⟩) := by
  obtain ⟨hset, _⟩ := processEvents_none evts (newClient none) rfl
  refine ⟨?_, ?_, ?_⟩
  · rw [hset]
    exact nodup_map_fst_foldl_setKey _ _ (by simp [newClient])
  · rw [hset, lookupKey_foldl_setKey]
    cases lastFlag (flattenWrites evts) fp <;> simp [newClient, lookupKey]
  · intro c rows p
    rfl

/-! ## Flush error handling (claim C1) -/

/-- Claim C1 (refuting evaluation): when the final delete/replace batch of a
flush window fails, `Flush` still advances `binlogPosSynced` to the captured
`posInMemory` before returning the error — the `SetPos(posOfFlush)` call at
line 310 of `client.go` is not guarded by the error from the last `doFlush`.
Here a one-entry changeset is flushed against a database that fails every
batch: the flush reports the error, yet `GetBinlogApplyPosition` moves from
the old synced position to the captured in-memory position. -/
theorem flush_error_still_advances_posSynced :
    let c0 : Client :=
      { newClient none with
          binlogChangeset := [("k1", false)]
          binlogPosSynced := some ⟨"binlog.000001", 50⟩
          binlogPosInMemory := some ⟨"binlog.000002", 100⟩ }
    let r := clientFlush (fun _ => false) c0
    r.2 = true
  ∧ getBinlogApplyPosition r.1 = some ⟨"binlog.000002", 100⟩
  ∧ getBinlogApplyPosition c0 = some ⟨"binlog.000001", 50⟩ := by
  exact ⟨rfl, rfl, rfl⟩

/-! ## Watermark-optimization default (claim C3) -/

/-- Claim C3 (refuting evaluation): on a freshly constructed client on which
`SetKeyAboveWatermarkOptimization` was never called, the zero value of
`disableKeyAboveWatermarkOptimization` is `false`, so the key-above-watermark
filter is ACTIVE: with a chunker attached whose `KeyAboveHighWatermark`
answers true, an insert row event is discarded (the changeset stays empty
while the event counter advances).  Only after explicitly calling
`SetKeyAboveWatermarkOptimization(false)` is the event recorded. -/
theorem fresh_client_discards_above_watermark :
    let cFresh : Client := newClient (some (fun _ => true))
    let cAfter : Client := onRow cFresh ⟨RowAction.insert, [(5, [])], 120⟩
    let cDisabled : Client := onRow (setKeyAboveWatermarkOptimization cFresh false)
      ⟨RowAction.insert, [(5, [])], 120⟩
    cFresh.disableKeyAboveWatermarkOptimization = false
  ∧ cAfter.binlogChangeset = []
  ∧ cAfter.changesetRowsEventCount = 1
  ∧ cDisabled.binlogChangeset = [(hashKey (5, []), false)] := by
  exact ⟨rfl, rfl, rfl, rfl⟩

/-! ## Copier driver-loop trace (claim C4) -/

/-- Claim C4 (refuting evaluation): the worker spawned by the `Run` driver
loop performs an unconditional five-second sleep (after logging "Waiting for
5 seconds") before it obtains the next chunk and before
`Throttler.BlockWait()` — extra waiting that the claim says does not exist.
`CopyChunk` itself inserts no waiting besides `BlockWait` before the bulk
insert. -/
theorem run_worker_contains_extra_sleep :
    CopierAction.sleepSeconds 5 ∈ runWorkerTrace
  ∧ CopierAction.sleepSeconds 5 ∉ copyChunkTrace
  ∧ List.indexOf (CopierAction.sleepSeconds 5) runWorkerTrace
      < List.indexOf CopierAction.throttlerBlockWait runWorkerTrace
  ∧ copyChunkTrace.head? = some CopierAction.throttlerBlockWait := by
  decide

/-! ## Copier counter invariant (claim C5) -/

theorem applyChunks_count_le_logical (chunks : List (Nat × Nat)) (c : CopierState)
    (hc : c.CopyRowsCount ≤ c.CopyRowsLogicalCount)
    (hch : ∀ p ∈ chunks, p.1 ≤ p.2) :
    (applyChunks c chunks).CopyRowsCount ≤ (applyChunks c chunks).CopyRowsLogicalCount := by
  induction chunks generalizing c with
  | nil => exact hc
  | cons p rest ih =>
    simp only [applyChunks, List.foldl_cons] at ih ⊢
    refine ih _ ?_ (fun q hq => hch q (List.mem_cons_of_mem p hq))
    have hp := hch p (List.mem_cons_self p rest)
    simp only [copyChunkCounters]
    omega

/-- Claim C5: `CopyRowsLogicalCount ≥ CopyRowsCount` after construction and
after every completed `CopyChunk`, provided each chunk's DB-reported affected
rows is at most its logical size and any resume triple satisfies
`rowsCopiedLogical ≥ rowsCopied`. -/
theorem copyRows_logical_ge_affected (rowsCopied rowsCopiedLogical : Nat)
    (hres : rowsCopied ≤ rowsCopiedLogical) (chunks : List (Nat × Nat))
    (hch : ∀ p ∈ chunks, p.1 ≤ p.2) :
    newCopierState.CopyRowsCount ≤ newCopierState.CopyRowsLogicalCount
  ∧ (copierFromCheckpoint rowsCopied rowsCopiedLogical).CopyRowsCount
      ≤ (copierFromCheckpoint rowsCopied rowsCopiedLogical).CopyRowsLogicalCount
  ∧ (applyChunks newCopierState chunks).CopyRowsCount
      ≤ (applyChunks newCopierState chunks).CopyRowsLogicalCount
  ∧ (applyChunks (copierFromCheckpoint rowsCopied rowsCopiedLogical) chunks).CopyRowsCount
      ≤ (applyChunks (copierFromCheckpoint rowsCopied rowsCopiedLogical) chunks).CopyRowsLogicalCount := by
  refine ⟨Nat.le_refl 0, hres, ?_, ?_⟩
  · exact applyChunks_count_le_logical chunks newCopierState (Nat.le_refl 0) hch
  · exact applyChunks_count_le_logical chunks (copierFromCheckpoint rowsCopied rowsCopiedLogical)
      hres hch

/-- Witness for claim C5 at a concrete resume triple and chunk sequence. -/
theorem copyRows_logical_ge_affected_witness :
    (applyChunks (copierFromCheckpoint 1 2) [(3, 4), (0, 5)]).CopyRowsCount
      ≤ (applyChunks (copierFromCheckpoint 1 2) [(3, 4), (0, 5)]).CopyRowsLogicalCount :=
  (copyRows_logical_ge_affected 1 2 (by decide) [(3, 4), (0, 5)] (by decide)).2.2.2

/-! ## Run start validation (claim C6) -/

/-- Claim C6: with the canal subscription created, (a) no prior synced
position makes `Run` adopt the server's current master position as
`posSynced` and spawn the consumer; (b) a prior position whose log file is
absent from the `SHOW MASTER LOGS` enumeration yields the synchronous
unrecoverable-position error, with no consumer spawned; (c) a prior position
whose log file is present spawns the consumer at that position and returns
nil. -/
theorem run_position_validation (p : Position) (master : Option Position) (ls : List String) :
    clientRun true none (some p) (some ls) = RunOutcome.started p
  ∧ (p.name ∉ ls → clientRun true (some p) master (some ls)
      = RunOutcome.failed "binlog position is impossible, the source may have already purged it")
  ∧ (p.name ∈ ls → clientRun true (some p) master (some ls) = RunOutcome.started p) := by
  refine ⟨rfl, ?_, ?_⟩
  · intro h
    simp [clientRun, binlogPositionIsImpossible, h]
  · intro h
    simp [clientRun, binlogPositionIsImpossible, h]

/-- Witness for claim C6 on a concrete two-file log enumeration. -/
theorem run_position_validation_witness :
    clientRun true none (some ⟨"b.2", 4⟩) (some ["b.1"]) = RunOutcome.started ⟨"b.2", 4⟩
  ∧ clientRun true (some ⟨"b.9", 4⟩) none (some ["b.1"])
      = RunOutcome.failed "binlog position is impossible, the source may have already purged it"
  ∧ clientRun true (some ⟨"b.1", 4⟩) none (some ["b.1"]) = RunOutcome.started ⟨"b.1", 4⟩ := by
  refine ⟨(run_position_validation ⟨"b.2", 4⟩ none ["b.1"]).1, ?_, ?_⟩
  · exact (run_position_validation ⟨"b.9", 4⟩ none ["b.1"]).2.1 (by decide)
  · exact (run_position_validation ⟨"b.1", 4⟩ none ["b.1"]).2.2 (by decide)

/-! ## Watermark filter consults only the first PK column (claim C10) -/

/-- Claim C10: the key-above-watermark discard decision of `OnRow` depends
only on the first primary-key column — the remaining columns of the key
tuple never change it, for any client (chunker attached or not). -/
theorem watermark_filter_first_column_only (c : Client) (v : Int) (t1 t2 : List Int) :
    watermarkDiscard c (v, t1) = watermarkDiscard c (v, t2) := by
  cases h : c.chunkerAttached <;> simp [watermarkDiscard, h]

/-! ## GetETA (claim C8) -/

/-- Counterexample to claim C8 as stated: at exactly 99.99 percent copied
(9999 of an estimated 10000 rows, warm-up over, nonzero rate) the claimed
behaviour returns "DUE", but `GetETA` uses the strict comparison
`pct > 99.99` (`copier.go` line 273) and falls through to the duration
branch. -/
theorem getETA_at_exact_boundary_not_due :
    getETAClaimed ⟨false, none, 10000⟩ ⟨9999, 0, 0, 100⟩ 3600 "" = EtaResult.due
  ∧ getETA ⟨false, none, 10000⟩ ⟨9999, 0, 0, 100⟩ 3600 "" = EtaResult.duration 0 none
  ∧ (getCopyStats ⟨false, none, 10000⟩ ⟨9999, 0, 0, 100⟩).pct = 9999 / 100 := by
  refine ⟨?_, ?_, ?_⟩
  · norm_num [getETAClaimed, getCopyStats]
  · norm_num [getETA, getCopyStats]
  · norm_num [getCopyStats]

/-- Claim C8 (amended): `GetETA` returns "DUE" whenever the copied
percentage is STRICTLY greater than 99.99 percent; otherwise it returns
"TBD" when less than the one-minute warm-up window has elapsed since start
or the rows-per-second estimate is zero; otherwise it returns the duration
`floor((total - copied) / rowsPerSecond)` seconds, annotated with the trend
comparison exactly when the ETA history produces one. -/
theorem getETA_branches (t : TableMeta) (c : CopierState) (e : ℚ) (comp : String) :
    ((getCopyStats t c).pct > 9999 / 100 → getETA t c e comp = EtaResult.due)
  ∧ ((getCopyStats t c).pct ≤ 9999 / 100 → (c.rowsPerSecond = 0 ∨ e < 60) →
      getETA t c e comp = EtaResult.tbd)
  ∧ ((getCopyStats t c).pct ≤ 9999 / 100 → c.rowsPerSecond ≠ 0 → 60 ≤ e →
      getETA t c e comp
        = EtaResult.duration
            (((getCopyStats t c).total - (getCopyStats t c).copied) / c.rowsPerSecond)
            (if comp = "" then none else some comp)) := by
  refine ⟨?_, ?_, ?_⟩
  · intro h
    simp [getETA, h]
  · intro h1 h2
    rw [getETA, if_neg (not_lt.2 h1), if_pos h2]
  · intro h1 h2 h3
    rw [getETA, if_neg (not_lt.2 h1), if_neg (not_or.2 ⟨h2, not_lt.2 h3⟩)]

/-- Witness for the amended claim C8 in the duration branch. -/
theorem getETA_branches_witness :
    getETA ⟨false, none, 100⟩ ⟨50, 0, 0, 10⟩ 120 "up" = EtaResult.duration 5 (some "up") := by
  have h := (getETA_branches ⟨false, none, 100⟩ ⟨50, 0, 0, 10⟩ 120 "up").2.2
    (by norm_num [getCopyStats]) (by norm_num) (by norm_num)
  simpa [getCopyStats] using h

/-! ## Flush delta bookkeeping (claim C7) -/

theorem flushLoop_allOk_spec (n : Nat) (l : List (String × Bool)) (acc : FlushAcc)
    (h1 : acc.deleteKeys.length + acc.replaceKeys.length = acc.i - acc.applied)
    (h2 : acc.applied = 10000 * (acc.i / 10000))
    (h3 : acc.applied ≤ acc.i)
    (h4 : acc.delta = (n : Int) - (acc.applied : Int)) :
    (flushLoop (fun _ => true) l acc).2 = false
  ∧ (flushLoop (fun _ => true) l acc).1.i = acc.i + l.length
  ∧ (flushLoop (fun _ => true) l acc).1.applied = 10000 * ((acc.i + l.length) / 10000)
  ∧ (flushLoop (fun _ => true) l acc).1.applied ≤ acc.i + l.length
  ∧ (flushLoop (fun _ => true) l acc).1.delta
      = (n : Int) - ((flushLoop (fun _ => true) l acc).1.applied : Int) := by
  induction l generalizing acc with
  | nil =>
    refine ⟨rfl, by simp [flushLoop], ?_, ?_, ?_⟩ <;> simp only [flushLoop, List.length_nil] <;>
      omega
  | cons w rest ih =>
    obtain ⟨key, isDel⟩ := w
    have hlen : (if isDel then acc.deleteKeys ++ [key] else acc.deleteKeys).length
        + (if isDel then acc.replaceKeys else acc.replaceKeys ++ [key]).length
        = acc.deleteKeys.length + acc.replaceKeys.length + 1 := by
      cases isDel <;> simp <;> omega
    by_cases hmod : (acc.i + 1) % 10000 = 0
    · have hstep : flushLoop (fun _ => true) ((key, isDel) :: rest) acc
          = flushLoop (fun _ => true) rest
              ⟨[], [], acc.i + 1, acc.delta - 10000, acc.calls + 1,
                acc.applied
                  + ((if isDel then acc.deleteKeys ++ [key] else acc.deleteKeys).length
                    + (if isDel then acc.replaceKeys else acc.replaceKeys ++ [key]).length)⟩ := by
        simp [flushLoop, hmod]
      rw [hstep, hlen]
      obtain ⟨g1, g2, g3, g4, g5⟩ :=
        ih ⟨[], [], acc.i + 1, acc.delta - 10000, acc.calls + 1,
              acc.applied + (acc.deleteKeys.length + acc.replaceKeys.length + 1)⟩
          (by dsimp only; simp only [List.length_nil]; omega)
          (by dsimp only; omega) (by dsimp only; omega) (by dsimp only; omega)
      refine ⟨g1, ?_, ?_, ?_, ?_⟩
      · dsimp only at g2
        simp only [List.length_cons]
        omega
      · dsimp only at g3
        simp only [List.length_cons]
        omega
      · dsimp only at g4
        simp only [List.length_cons]
        omega
      · exact g5
    · have hstep : flushLoop (fun _ => true) ((key, isDel) :: rest) acc
          = flushLoop (fun _ => true) rest
              ⟨if isDel then acc.deleteKeys ++ [key] else acc.deleteKeys,
                if isDel then acc.replaceKeys else acc.replaceKeys ++ [key],
                acc.i + 1, acc.delta, acc.calls, acc.applied⟩ := by
        simp [flushLoop, hmod]
      rw [hstep]
      obtain ⟨g1, g2, g3, g4, g5⟩ :=
        ih ⟨if isDel then acc.deleteKeys ++ [key] else acc.deleteKeys,
              if isDel then acc.replaceKeys else acc.replaceKeys ++ [key],
              acc.i + 1, acc.delta, acc.calls, acc.applied⟩
          (by dsimp only; omega) (by dsimp only; omega) (by dsimp only; omega)
          (by dsimp only; exact h4)
      refine ⟨g1, ?_, ?_, ?_, ?_⟩
      · dsimp only at g2
        simp only [List.length_cons]
        omega
      · dsimp only at g3
        simp only [List.length_cons]
        omega
      · dsimp only at g4
        simp only [List.length_cons]
        omega
      · exact g5

/-- Claim C7: `GetDeltaLen` reports the live map size plus the delta; a
flush sets the delta to the captured length at the swap; after the first `j`
loop iterations of a (successful) flush the drained count is
`10000 * (j / 10000)` — one decrement of 10000 per full batch — and the delta
equals the captured length minus the drained count, hence stays positive
while captured entries remain undrained; the delta is reset to zero when
`Flush` exits. -/
theorem pending_work_delta (c : Client) (j : Nat) (hj : j ≤ c.binlogChangeset.length) :
    getDeltaLen c = (c.binlogChangeset.length : Int) + c.binlogChangesetDelta
  ∧ (initAcc c.binlogChangeset.length).delta = (c.binlogChangeset.length : Int)
  ∧ (flushLoop (fun _ => true) (c.binlogChangeset.take j)
        (initAcc c.binlogChangeset.length)).1.applied = 10000 * (j / 10000)
  ∧ (flushLoop (fun _ => true) (c.binlogChangeset.take j)
        (initAcc c.binlogChangeset.length)).1.delta
      = (c.binlogChangeset.length : Int)
        - ((flushLoop (fun _ => true) (c.binlogChangeset.take j)
            (initAcc c.binlogChangeset.length)).1.applied : Int)
  ∧ ((flushLoop (fun _ => true) (c.binlogChangeset.take j)
        (initAcc c.binlogChangeset.length)).1.applied < c.binlogChangeset.length →
      0 < (flushLoop (fun _ => true) (c.binlogChangeset.take j)
        (initAcc c.binlogChangeset.length)).1.delta)
  ∧ (clientFlush (fun _ => true) c).1.binlogChangesetDelta = 0 := by
  obtain ⟨g1, g2, g3, g4, g5⟩ := flushLoop_allOk_spec c.binlogChangeset.length
    (c.binlogChangeset.take j) (initAcc c.binlogChangeset.length)
    (by simp [initAcc]) (by simp [initAcc]) (by simp [initAcc]) (by simp [initAcc])
  have htake : (c.binlogChangeset.take j).length = j := by
    simp only [List.length_take]
    omega
  rw [htake] at g3
  simp only [initAcc] at g3
  refine ⟨rfl, rfl, by simpa using g3, g5, ?_, ?_⟩
  · intro hlt
    omega
  · simp only [clientFlush]
    split
    · rfl
    · rfl

/-- Witness for claim C7: a two-entry changeset after one loop iteration
still reports a positive delta. -/
theorem pending_work_delta_witness :
    0 < (flushLoop (fun _ => true)
        (({ newClient none with
            binlogChangeset := [("a", false), ("b", true)] } : Client).binlogChangeset.take 1)
        (initAcc ({ newClient none with
            binlogChangeset := [("a", false), ("b", true)] } : Client).binlogChangeset.length)).1.delta := by
  have h := pending_work_delta
    { newClient none with binlogChangeset := [("a", false), ("b", true)] } 1 (by decide)
  exact h.2.2.2.2.1 (by decide)

/-! ## Rows-per-second estimator (claim C9) -/

theorem estimateLoop_length (autoInc : Bool) (prev : Nat) (ss : List CopierState) :
    (estimateLoop autoInc prev ss).length = ss.length := by
  induction ss generalizing prev with
  | nil => rfl
  | cons c rest ih => simp [estimateLoop, estimateTick, ih]

/-- Claim C9: each ten-second tick of the estimator stores
`(newCount - prevCount) / 10` into `rowsPerSecond`, where the sampled
counter is `CopyRowsLogicalCount` for a monotonic auto-inc PK and
`CopyRowsCount` otherwise, and the previous sample is the constructor-time
sample for the first tick and the preceding tick's sample afterwards. -/
theorem rps_estimator_samples (autoInc : Bool) (prev : Nat) (ss : List CopierState)
    (i : Nat) (h : i < ss.length) :
    copyEstimateIntervalSeconds = 10
  ∧ (estimateLoop autoInc prev ss).length = ss.length
  ∧ ((estimateLoop autoInc prev ss).getD i default).rowsPerSecond
      = (sampleCount autoInc (ss.getD i default)
          - (if i = 0 then prev else sampleCount autoInc (ss.getD (i - 1) default)))
        / copyEstimateIntervalSeconds
  ∧ (∀ s : CopierState, sampleCount autoInc s
      = if autoInc then s.CopyRowsLogicalCount else s.CopyRowsCount) := by
  refine ⟨rfl, estimateLoop_length autoInc prev ss, ?_, fun s => rfl⟩
  induction ss generalizing prev i with
  | nil => exact absurd h (by simp)
  | cons c rest ih =>
    cases i with
    | zero => simp [estimateLoop, estimateTick]
    | succ j =>
      have hj : j < rest.length := by simpa using h
      have hrec := ih (sampleCount autoInc c) j hj
      cases j with
      | zero => simpa [estimateLoop, estimateTick] using hrec
      | succ j2 => simpa [estimateLoop, estimateTick] using hrec

/-- Witness for claim C9: one tick on an auto-inc table computes
`(23 - 3) / 10 = 2`. -/
theorem rps_estimator_samples_witness :
    ((estimateLoop true 3 [⟨0, 23, 0, 0⟩]).getD 0 default).rowsPerSecond = 2 := by
  have h := (rps_estimator_samples true 3 [⟨0, 23, 0, 0⟩] 0 (by norm_num)).2.2.1
  simpa [sampleCount, copyEstimateIntervalSeconds] using h
